import Mathlib

/-!
Verification of the kaisha-island-rs utility scripts (src/utils.py).

The development shallowly embeds the two algorithmic parts of the
repository:

* the month-by-month interval planning loop of `download_images_to_disk`
  (lines 105-115 of src/utils.py), over a calendar-date model mirroring
  Python `datetime.date` comparison and `dateutil.relativedelta(months=1)`
  arithmetic, together with `datetime.timedelta(days=1)` subtraction;
* the tiling, brightness and gamma stages of `crop_and_process_images`
  (lines 119-170), over grids of natural-number coordinates and a
  real-valued pixel model of the Pillow primitives the code calls.
-/

namespace Kaisha

/-- Calendar date, mirroring the (year, month, day) fields of a Python
`datetime` value (the scripts only ever use midnight times, so the time
component is irrelevant). -/
structure Date where
  year : Nat
  month : Nat
  day : Nat
deriving DecidableEq, Repr

namespace Date

/-- Gregorian leap-year test, as implemented by Python `calendar.isleap`
and used by `dateutil` day clamping. -/
def isLeap (y : Nat) : Bool :=
  (y % 4 == 0 && y % 100 != 0) || (y % 400 == 0)

/-- Number of days of month `m` of year `y` (Python `calendar.monthrange`). -/
def daysInMonth (y m : Nat) : Nat :=
  if m = 2 then (if isLeap y then 29 else 28)
  else if m = 4 ∨ m = 6 ∨ m = 9 ∨ m = 11 then 30
  else 31

/-- A structurally valid calendar date, i.e. one representable as a Python
`datetime.date`. -/
def Valid (d : Date) : Prop :=
  1 ≤ d.month ∧ d.month ≤ 12 ∧ 1 ≤ d.day ∧ d.day ≤ daysInMonth d.year d.month

instance (d : Date) : Decidable d.Valid :=
  inferInstanceAs (Decidable (_ ∧ _))

/-- Strict order on dates: Python `datetime` comparison is lexicographic on
(year, month, day). -/
def lt (a b : Date) : Prop :=
  a.year < b.year ∨ (a.year = b.year ∧
    (a.month < b.month ∨ (a.month = b.month ∧ a.day < b.day)))

/-- Weak order on dates, lexicographic on (year, month, day). -/
def le (a b : Date) : Prop :=
  a.year < b.year ∨ (a.year = b.year ∧
    (a.month < b.month ∨ (a.month = b.month ∧ a.day ≤ b.day)))

instance : LT Date := ⟨Date.lt⟩

instance : LE Date := ⟨Date.le⟩

instance (a b : Date) : Decidable (a < b) :=
  inferInstanceAs (Decidable (_ ∨ _))

instance (a b : Date) : Decidable (a ≤ b) :=
  inferInstanceAs (Decidable (_ ∨ _))

/-- One calendar month forward, embedding
`d + dateutil.relativedelta(months=1)`: the month is incremented with year
carry and the day is clamped to the length of the target month. -/
def addMonth (d : Date) : Date :=
  if d.month = 12 then ⟨d.year + 1, 1, min d.day (daysInMonth (d.year + 1) 1)⟩
  else ⟨d.year, d.month + 1, min d.day (daysInMonth d.year (d.month + 1))⟩

/-- One day back, embedding `d - datetime.timedelta(days=1)`. -/
def pred (d : Date) : Date :=
  if 1 < d.day then ⟨d.year, d.month, d.day - 1⟩
  else if 1 < d.month then ⟨d.year, d.month - 1, daysInMonth d.year (d.month - 1)⟩
  else ⟨d.year - 1, 12, 31⟩

/-- One day forward, embedding `d + datetime.timedelta(days=1)`; used to
state contiguity of the planned intervals. -/
def succ (d : Date) : Date :=
  if d.day < daysInMonth d.year d.month then ⟨d.year, d.month, d.day + 1⟩
  else if d.month < 12 then ⟨d.year, d.month + 1, 1⟩
  else ⟨d.year + 1, 1, 1⟩

/-- Index of the month of a date on the infinite month axis; the planning
loop advances it by exactly one per iteration. -/
def monthIndex (d : Date) : Nat := 12 * d.year + d.month

end Date

/-- End point of the sub-interval starting at `cur`, embedding lines
110-112 of src/utils.py: `month_end = current + relativedelta(months=1) -
timedelta(days=1)`, then `if month_end > end_date: month_end = end_date`. -/
def monthEnd (cur e : Date) : Date :=
  if e < cur.addMonth.pred then e else cur.addMonth.pred

/-- The interval-planning loop of `download_images_to_disk` (lines
105-115 of src/utils.py), with an explicit fuel bound on the number of
iterations: `while current <= end_date` produces the sub-interval
`(current, month_end)` and then advances `current` by one calendar month. -/
def planIntervalsAux : Nat → Date → Date → List (Date × Date)
  | 0, _, _ => []
  | fuel + 1, cur, e =>
    if cur ≤ e then (cur, monthEnd cur e) :: planIntervalsAux fuel cur.addMonth e
    else []

/-- Sequence of monthly sub-intervals planned for `[s, e]`.  The fuel
`monthIndex e + 1 - monthIndex s` is exactly the number of loop
iterations: the loop advances the month index by one per iteration and
stops as soon as `current > e`. -/
def planIntervals (s e : Date) : List (Date × Date) :=
  planIntervalsAux (e.monthIndex + 1 - s.monthIndex) s e

/-- Result list of `request.get_data()` for one request: one raster per
element, possibly empty (the spec models the remote service as returning
raw image bytes or an empty list). -/
def download_single_image {α : Type} (responses : List α) : Except String α :=
  match responses with
  | [] => Except.error "IndexError: list index out of range"
  | x :: _ => Except.ok x

/-- Outcome of running the download loop: the images saved to disk (keyed
by interval start date, as in `f"{output_dir}/{current_month[0]}.png"`)
and the uncaught exception that aborted the loop, if any. -/
structure DownloadRun (α : Type) where
  saved : List (Date × α)
  error : Option String
deriving DecidableEq, Repr

/-- Body of the while loop of `download_images_to_disk` (lines 109-115 of
src/utils.py) over the already-planned intervals: each iteration fetches
one interval via `download_single_image` and saves the result; the
function contains no try/except, so an exception from the fetch aborts
the loop at once and nothing further is saved. -/
def downloadLoop {α : Type} (fetch : Date × Date → List α) :
    List (Date × Date) → DownloadRun α
  | [] => ⟨[], none⟩
  | iv :: rest =>
    match download_single_image (fetch iv) with
    | Except.error msg => ⟨[], some msg⟩
    | Except.ok img =>
      let r := downloadLoop fetch rest
      ⟨(iv.1, img) :: r.saved, r.error⟩

/-- Embeds `download_images_to_disk` (lines 90-117): plan the monthly
sub-intervals of `[s, e]`, then fetch and save each in order.  The
abstract `fetch` argument stands for the network round trip of
`request.get_data()`. -/
def download_images_to_disk {α : Type} (fetch : Date × Date → List α)
    (s e : Date) : DownloadRun α :=
  downloadLoop fetch (planIntervals s e)


/-- Crop rectangle in the Pillow order `(left, upper, right, lower)`, as
passed to `img.crop` on line 148 of src/utils.py. -/
structure Box where
  left : Nat
  upper : Nat
  right : Nat
  lower : Nat
deriving DecidableEq, Repr

/-- Grid cells `(i, j)` enumerated by the nested loops of lines 140-141:
`for i in range(tiles_y): for j in range(tiles_x)`, with
`tiles_x = width // tile_size[0]` and `tiles_y = height // tile_size[1]`
(lines 137-138). -/
def tileGrid (width height tw th : Nat) : List (Nat × Nat) :=
  (List.range (height / th)).flatMap fun i =>
    (List.range (width / tw)).map fun j => (i, j)

/-- Crop box of grid cell `(i, j)` per lines 142-145: `left = j * tw`,
`upper = i * th`, `right = left + tw`, `lower = upper + th`. -/
def tileBox (tw th : Nat) (cell : Nat × Nat) : Box :=
  ⟨cell.2 * tw, cell.1 * th, cell.2 * tw + tw, cell.1 * th + th⟩

/-- Pixel-coordinate membership of a crop box. -/
def inBox (b : Box) (x y : Nat) : Prop :=
  b.left ≤ x ∧ x < b.right ∧ b.upper ≤ y ∧ y < b.lower

/-- Lower-casing of a filename (Python `str.lower`), character by
character. -/
def strToLower (s : String) : String := ⟨s.data.map Char.toLower⟩

/-- Suffix test on strings (Python `str.endswith`), over the character
lists. -/
def strEndsWith (s t : String) : Bool := t.data.isSuffixOf s.data

/-- Extension allow-list check of line 132:
`filename.lower().endswith((".png", ".jpg", ".jpeg", ".tif", ".tiff"))`. -/
def hasImageExt (name : String) : Bool :=
  strEndsWith (strToLower name) ".png" || strEndsWith (strToLower name) ".jpg"
    || strEndsWith (strToLower name) ".jpeg"
    || strEndsWith (strToLower name) ".tif"
    || strEndsWith (strToLower name) ".tiff"

/-- What opening one listed file yields: a decoded RGB image with its pixel
dimensions, or an exception with its message (corrupt or unreadable
file). -/
inductive Decoded where
  | img (width height : Nat)
  | failure (msg : String)
deriving DecidableEq, Repr

/-- One directory entry seen by the processing loop.  The filename is kept
split as `stem ++ ext` so that the tile-name construction
`os.path.splitext(filename)[0]` of line 163 is the `stem` field. -/
structure SrcFile where
  stem : String
  ext : String
  decoded : Decoded
deriving DecidableEq, Repr

/-- Full filename of a directory entry. -/
def SrcFile.name (f : SrcFile) : String := f.stem ++ f.ext

/-- Tile filename of line 163: `f"{stem}_tile_{i}_{j}.png"`. -/
def tileName (stem : String) (cell : Nat × Nat) : String :=
  stem ++ "_tile_" ++ toString cell.1 ++ "_" ++ toString cell.2 ++ ".png"

/-- Per-file outcome of the loop body of lines 131-168: files whose
extension is not on the allow-list are skipped; listed files either
produce one written tile per grid cell, or fail with the log line of line
168 (`print(f"Error processing ...")`) when decoding raises. -/
inductive FileOutcome where
  | skipped
  | processed (tiles : List String)
  | failed (log : String)
deriving DecidableEq, Repr

/-- Processing of a single directory entry (lines 132-168): extension
filter, then `try` decode-and-tile, `except` log-and-continue. -/
def processFile (tw th : Nat) (f : SrcFile) : FileOutcome :=
  if hasImageExt f.name then
    match f.decoded with
    | Decoded.img w h =>
        FileOutcome.processed ((tileGrid w h tw th).map (tileName f.stem))
    | Decoded.failure msg =>
        FileOutcome.failed ("Error processing " ++ f.name ++ ": " ++ msg)
  else FileOutcome.skipped

/-- Embeds the directory loop of `crop_and_process_images` (lines
131-168): every listed file is processed independently, in listing
order. -/
def crop_and_process_images (tw th : Nat) (files : List SrcFile) :
    List FileOutcome :=
  files.map (processFile tw th)

/-- Full run of `crop_and_process_images`, keeping its Python return
value: the function body (lines 119-170) contains no return statement, so
the call returns None. -/
structure ProcRun where
  outcomes : List FileOutcome
  retval : Option Nat
deriving DecidableEq, Repr

/-- Embeds a call of `crop_and_process_images`, pairing the per-file
outcomes with the (absent) return value. -/
def crop_and_process_images_run (tw th : Nat) (files : List SrcFile) :
    ProcRun :=
  ⟨crop_and_process_images tw th files, none⟩

/-- Number of tile files written during a run. -/
def tilesWritten (outcomes : List FileOutcome) : Nat :=
  (outcomes.map fun o =>
    match o with
    | FileOutcome.processed ts => ts.length
    | _ => 0).sum

/-- Clamp-and-round applied by Pillow to the float entries of a point
lookup table on an 8-bit image (`Image.point` rounds the entries to
integers and clips them to the uint8 range 0..255). -/
noncomputable def clampRound (x : ℝ) : ℕ := (max 0 (min 255 (round x))).toNat

/-- Interpolation value of Pillow `Image.blend`: `in1 + alpha * (in2 - in1)`
per channel. -/
noncomputable def blendValue (alpha : ℝ) (c1 c2 : ℕ) : ℝ :=
  (c1 : ℝ) + alpha * ((c2 : ℝ) - (c1 : ℝ))

open Classical in
/-- Per-channel semantics of Pillow `Image.blend` (Blend.c): `im1` when
`alpha == 0`, `im2` when `alpha == 1`, a uint8 cast (truncation) of the
interpolation for `0 <= alpha <= 1`, and the interpolation clipped to
0..255 then truncated otherwise (extrapolation, as with the brightness
factor 2.0 used by the script defaults). -/
noncomputable def blendChannel (alpha : ℝ) (c1 c2 : ℕ) : ℕ :=
  if alpha = 0 then c1
  else if alpha = 1 then c2
  else if 0 ≤ alpha ∧ alpha ≤ 1 then (Int.floor (blendValue alpha c1 c2)).toNat
  else if blendValue alpha c1 c2 ≤ 0 then 0
  else if 255 ≤ blendValue alpha c1 c2 then 255
  else (Int.floor (blendValue alpha c1 c2)).toNat

/-- Brightness enhancement per channel (lines 151-152 of src/utils.py):
`ImageEnhance.Brightness(tile).enhance(factor)` is
`Image.blend(black, tile, factor)` where the degenerate image is all
zeros, so each channel blends from `c1 = 0`. -/
noncomputable def brightnessChannel (factor : ℝ) (c : ℕ) : ℕ :=
  blendChannel factor 0 c

/-- Gamma lookup table of line 157:
`table = [((c / 255.0) ** inv_gamma) * 255 for c in range(256)]` with
`inv_gamma = 1.0 / gamma`, over exact reals. -/
noncomputable def gammaTable (gamma : ℝ) : List ℝ :=
  (List.range 256).map fun c : ℕ => ((c : ℝ) / 255) ^ (1 / gamma) * 255

/-- Line 159: `gamma_table = table * 3` replicates the same 256-entry
table for the three RGB bands. -/
noncomputable def gammaTableRGB (gamma : ℝ) : List ℝ :=
  gammaTable gamma ++ gammaTable gamma ++ gammaTable gamma

/-- `Image.point` on an RGB image: band `b` (0, 1 or 2) of channel value
`v` is mapped through entry `b * 256 + v` of the 768-entry table. -/
noncomputable def pointChannel (lut : List ℝ) (band v : ℕ) : ℕ :=
  clampRound (lut.getD (band * 256 + v) 0)

open Classical in
/-- The gamma branch of lines 154-160: when `gamma != 1.0` the replicated
lookup table is applied to the three channels via `Image.point`; when
`gamma == 1.0` the step is skipped and the pixel passes through. -/
noncomputable def gammaStep (gamma : ℝ) (p : ℕ × ℕ × ℕ) : ℕ × ℕ × ℕ :=
  if gamma ≠ 1 then
    (pointChannel (gammaTableRGB gamma) 0 p.1,
     pointChannel (gammaTableRGB gamma) 1 p.2.1,
     pointChannel (gammaTableRGB gamma) 2 p.2.2)
  else p

/-- Per-pixel action of the enhancement stage (lines 150-160): brightness
scaling, then the optional gamma step. -/
noncomputable def processPixel (factor gamma : ℝ) (p : ℕ × ℕ × ℕ) : ℕ × ℕ × ℕ :=
  gammaStep gamma
    (brightnessChannel factor p.1, brightnessChannel factor p.2.1,
     brightnessChannel factor p.2.2)

/-- A tile is processed pixelwise. -/
noncomputable def processTile (factor gamma : ℝ)
    (tile : List (ℕ × ℕ × ℕ)) : List (ℕ × ℕ × ℕ) :=
  tile.map (processPixel factor gamma)


namespace Date

theorem le_def {a b : Date} : a ≤ b ↔
    a.year < b.year ∨ (a.year = b.year ∧
      (a.month < b.month ∨ (a.month = b.month ∧ a.day ≤ b.day))) := Iff.rfl

theorem lt_def' {a b : Date} : a < b ↔
    a.year < b.year ∨ (a.year = b.year ∧
      (a.month < b.month ∨ (a.month = b.month ∧ a.day < b.day))) := Iff.rfl

theorem eq_iff {a b : Date} :
    a = b ↔ a.year = b.year ∧ a.month = b.month ∧ a.day = b.day := by
  cases a; cases b; simp

theorem le_refl (a : Date) : a ≤ a := by
  simp [le_def]

theorem le_trans {a b c : Date} : a ≤ b → b ≤ c → a ≤ c := by
  simp only [le_def]; omega

theorem lt_of_le_of_lt {a b c : Date} : a ≤ b → b < c → a < c := by
  simp only [le_def, lt_def']; omega

theorem lt_of_lt_of_le {a b c : Date} : a < b → b ≤ c → a < c := by
  simp only [le_def, lt_def']; omega

theorem le_of_lt {a b : Date} : a < b → a ≤ b := by
  simp only [le_def, lt_def']; omega

theorem not_le {a b : Date} : ¬ a ≤ b ↔ b < a := by
  simp only [le_def, lt_def']; omega

theorem not_lt {a b : Date} : ¬ a < b ↔ b ≤ a := by
  simp only [le_def, lt_def']; omega

theorem le_antisymm {a b : Date} : a ≤ b → b ≤ a → a = b := by
  simp only [le_def, eq_iff]; omega

theorem lt_irrefl (a : Date) : ¬ a < a := by
  simp [lt_def']

theorem daysInMonth_bounds (y m : Nat) :
    28 ≤ daysInMonth y m ∧ daysInMonth y m ≤ 31 := by
  unfold daysInMonth
  split_ifs <;> omega

theorem daysInMonth_jan (y : Nat) : daysInMonth y 1 = 31 := by
  simp [daysInMonth]

theorem daysInMonth_dec (y : Nat) : daysInMonth y 12 = 31 := by
  simp [daysInMonth]

theorem valid_addMonth {d : Date} (h : d.Valid) : (addMonth d).Valid := by
  obtain ⟨h1, h2, h3, h4⟩ := h
  have b1 := daysInMonth_bounds (d.year + 1) 1
  have b2 := daysInMonth_bounds d.year (d.month + 1)
  unfold addMonth
  split_ifs with hm <;>
    refine ⟨by dsimp only; omega, by dsimp only; omega, ?_, ?_⟩ <;>
    dsimp only
  · exact Nat.le_min.mpr ⟨h3, by omega⟩
  · exact Nat.min_le_right _ _
  · exact Nat.le_min.mpr ⟨h3, by omega⟩
  · exact Nat.min_le_right _ _

theorem lt_addMonth {d : Date} (h : d.Valid) : d < addMonth d := by
  obtain ⟨h1, h2, h3, h4⟩ := h
  unfold addMonth
  split_ifs with hm
  · exact Or.inl (by dsimp only; omega)
  · exact Or.inr ⟨rfl, Or.inl (by dsimp only; omega)⟩

theorem monthIndex_addMonth {d : Date} (h : d.Valid) :
    monthIndex (addMonth d) = monthIndex d + 1 := by
  obtain ⟨h1, h2, h3, h4⟩ := h
  unfold addMonth monthIndex
  split_ifs with hm <;> dsimp only <;> omega

theorem monthIndex_le_of_le {a b : Date} (ha : a.Valid) (hb : b.Valid)
    (h : a ≤ b) : monthIndex a ≤ monthIndex b := by
  obtain ⟨ha1, ha2, ha3, ha4⟩ := ha
  obtain ⟨hb1, hb2, hb3, hb4⟩ := hb
  rw [Date.le_def] at h
  unfold monthIndex
  omega

theorem lt_succ {m : Date} (h : m.Valid) : m < succ m := by
  obtain ⟨h1, h2, h3, h4⟩ := h
  unfold succ
  split_ifs with hd hm
  · exact Or.inr ⟨rfl, Or.inr ⟨rfl, by dsimp only; omega⟩⟩
  · exact Or.inr ⟨rfl, Or.inl (by dsimp only; omega)⟩
  · exact Or.inl (by dsimp only; omega)

theorem succ_le_iff {m d : Date} (hm : m.Valid) (hd : d.Valid) :
    m < d ↔ succ m ≤ d := by
  constructor
  · intro hlt
    obtain ⟨m1, m2, m3, m4⟩ := hm
    obtain ⟨d1, d2, d3, d4⟩ := hd
    rcases hlt with hy | ⟨hy, hmo | ⟨hmo, hdd⟩⟩
    · unfold succ
      split_ifs <;> (rw [le_def]; dsimp only; omega)
    · unfold succ
      split_ifs <;> (rw [le_def]; dsimp only; omega)
    · have hq : daysInMonth d.year d.month = daysInMonth m.year m.month := by
        rw [hy, hmo]
      unfold succ
      split_ifs <;> (rw [le_def]; dsimp only; omega)
  · intro hle
    exact lt_of_lt_of_le (lt_succ hm) hle

/-- Dates other than day one of month one of year zero have a working
one-day roll-back: stepping forward again restores the date. -/
theorem succ_pred {x : Date} (h : x.Valid)
    (h0 : 1 ≤ x.year ∨ 2 ≤ x.month ∨ 2 ≤ x.day) : succ (pred x) = x := by
  obtain ⟨h1, h2, h3, h4⟩ := h
  have b1 := daysInMonth_bounds x.year x.month
  unfold pred
  split_ifs with hd hmo
  · unfold succ
    split_ifs with hs hs2
    · rw [eq_iff]; exact ⟨rfl, rfl, by dsimp only; omega⟩
    · exact (hs (by dsimp only; omega)).elim
    · exact (hs (by dsimp only; omega)).elim
  · have b2 := daysInMonth_bounds x.year (x.month - 1)
    unfold succ
    split_ifs with hs hs2
    · dsimp only at hs
      exact (Nat.lt_irrefl _ hs).elim
    · rw [eq_iff]; exact ⟨rfl, by dsimp only; omega, by dsimp only; omega⟩
    · exact (hs2 (by dsimp only; omega)).elim
  · have hy : 1 ≤ x.year := by omega
    unfold succ
    split_ifs with hs hs2
    · dsimp only at hs
      rw [daysInMonth_dec] at hs
      exact (Nat.lt_irrefl _ hs).elim
    · dsimp only at hs2
      exact (Nat.lt_irrefl _ hs2).elim
    · rw [eq_iff]
      exact ⟨by dsimp only; omega, by dsimp only; omega, by dsimp only; omega⟩

theorem pred_lt {x : Date} (h : x.Valid)
    (h0 : 1 ≤ x.year ∨ 2 ≤ x.month ∨ 2 ≤ x.day) : pred x < x := by
  obtain ⟨h1, h2, h3, h4⟩ := h
  unfold pred
  split_ifs with hd hmo
  · exact Or.inr ⟨rfl, Or.inr ⟨rfl, by dsimp only; omega⟩⟩
  · exact Or.inr ⟨rfl, Or.inl (by dsimp only; omega)⟩
  · exact Or.inl (by dsimp only; omega)

theorem addMonth_side {d : Date} (h : d.Valid) :
    1 ≤ (addMonth d).year ∨ 2 ≤ (addMonth d).month ∨ 2 ≤ (addMonth d).day := by
  obtain ⟨h1, h2, h3, h4⟩ := h
  unfold addMonth
  split_ifs with hm <;> dsimp only <;> omega

theorem valid_pred {d : Date} (h : d.Valid) : (pred d).Valid := by
  obtain ⟨h1, h2, h3, h4⟩ := h
  unfold pred
  split_ifs with hd hm
  · exact ⟨h1, h2, by simp; omega, by simp; omega⟩
  · have := daysInMonth_bounds d.year (d.month - 1)
    exact ⟨by simp; omega, by simp; omega, by simp; omega, by simp⟩
  · exact ⟨by simp, by simp, by simp, by simp [daysInMonth_dec]⟩

end Date

theorem succ_monthEnd {cur e : Date} (hc : cur.Valid)
    (h : cur.addMonth ≤ e) : (monthEnd cur e).succ = cur.addMonth := by
  unfold monthEnd
  have hp := Date.pred_lt (Date.valid_addMonth hc) (Date.addMonth_side hc)
  split_ifs with hlt
  · exact absurd (Date.lt_of_lt_of_le (Date.lt_of_lt_of_le hlt (Date.le_of_lt hp)) h)
      (Date.lt_irrefl e)
  · exact Date.succ_pred (Date.valid_addMonth hc) (Date.addMonth_side hc)

theorem monthEnd_eq_of_next_le {cur e : Date} (hc : cur.Valid)
    (h : cur.addMonth ≤ e) : monthEnd cur e = cur.addMonth.pred := by
  unfold monthEnd
  have hp := Date.pred_lt (Date.valid_addMonth hc) (Date.addMonth_side hc)
  split_ifs with hlt
  · exact absurd (Date.lt_of_lt_of_le (Date.lt_of_lt_of_le hlt (Date.le_of_lt hp)) h)
      (Date.lt_irrefl e)
  · rfl

theorem monthEnd_eq_end {cur e : Date} (hc : cur.Valid) (he : e.Valid)
    (h : e < cur.addMonth) : monthEnd cur e = e := by
  unfold monthEnd
  have hsp := Date.succ_pred (Date.valid_addMonth hc) (Date.addMonth_side hc)
  split_ifs with hlt
  · rfl
  · rw [Date.not_lt] at hlt
    refine Date.le_antisymm hlt ?_
    rw [Date.not_lt.symm]
    intro hme
    rw [Date.succ_le_iff (Date.valid_pred (Date.valid_addMonth hc)) he, hsp] at hme
    exact absurd (Date.lt_of_le_of_lt hme h) (Date.lt_irrefl cur.addMonth)

theorem le_monthEnd {cur e : Date} (hc : cur.Valid) (he : e.Valid)
    (h : cur ≤ e) : cur ≤ monthEnd cur e := by
  unfold monthEnd
  have hsp := Date.succ_pred (Date.valid_addMonth hc) (Date.addMonth_side hc)
  split_ifs with hlt
  · exact h
  · rw [Date.not_lt.symm]
    intro hcur
    rw [Date.succ_le_iff (Date.valid_pred (Date.valid_addMonth hc)) hc, hsp] at hcur
    exact absurd (Date.lt_of_le_of_lt hcur (Date.lt_addMonth hc)) (Date.lt_irrefl cur.addMonth)

theorem monthEnd_le_end {cur e : Date} (h : cur ≤ e) : monthEnd cur e ≤ e := by
  unfold monthEnd
  split_ifs with hlt
  · exact Date.le_refl e
  · exact Date.not_lt.mp hlt

theorem monthEnd_valid {cur e : Date} (hc : cur.Valid) (he : e.Valid) :
    (monthEnd cur e).Valid := by
  unfold monthEnd
  split_ifs with hlt
  · exact he
  · exact Date.valid_pred (Date.valid_addMonth hc)

theorem planIntervalsAux_nil {cur e : Date} (h : ¬ cur ≤ e) :
    ∀ fuel, planIntervalsAux fuel cur e = [] := by
  intro fuel
  cases fuel <;> simp [planIntervalsAux, h]

theorem planIntervalsAux_cons {fuel : Nat} {cur e : Date} (h : cur ≤ e) :
    planIntervalsAux (fuel + 1) cur e
      = (cur, monthEnd cur e) :: planIntervalsAux fuel cur.addMonth e := by
  simp [planIntervalsAux, h]

/-- With enough fuel, the loop runs at least once whenever `cur ≤ e`. -/
theorem planIntervalsAux_ne_nil {fuel : Nat} {cur e : Date}
    (hc : cur.Valid) (he : e.Valid) (h : cur ≤ e)
    (hf : e.monthIndex + 1 ≤ cur.monthIndex + fuel) :
    planIntervalsAux fuel cur e ≠ [] := by
  have hmi := Date.monthIndex_le_of_le hc he h
  cases fuel with
  | zero => omega
  | succ fuel => rw [planIntervalsAux_cons h]; simp

/-- Every interval of the loop output lies inside `[cur, e]`, has a valid
start not before `cur`, and a valid end not past `e`. -/
theorem planIntervalsAux_mem {fuel : Nat} {cur e : Date}
    (hc : cur.Valid) (he : e.Valid) :
    ∀ p ∈ planIntervalsAux fuel cur e,
      p.1.Valid ∧ p.2.Valid ∧ cur ≤ p.1 ∧ p.1 ≤ p.2 ∧ p.2 ≤ e := by
  induction fuel generalizing cur with
  | zero => simp [planIntervalsAux]
  | succ fuel ih =>
    by_cases h : cur ≤ e
    · rw [planIntervalsAux_cons h]
      intro p hp
      rcases List.mem_cons.mp hp with hp | hp
      · subst hp
        exact ⟨hc, monthEnd_valid hc he, Date.le_refl cur,
          le_monthEnd hc he h, monthEnd_le_end h⟩
      · obtain ⟨v1, v2, hcp, hple, hpe⟩ := ih (Date.valid_addMonth hc) p hp
        exact ⟨v1, v2,
          Date.le_trans (Date.le_of_lt (Date.lt_addMonth hc)) hcp, hple, hpe⟩
    · rw [planIntervalsAux_nil h]
      simp

/-- The k-th interval of the loop output starts at `cur` advanced k times
by one calendar month. -/
theorem planIntervalsAux_start {fuel : Nat} {cur e : Date} :
    ∀ k p, (planIntervalsAux fuel cur e)[k]? = some p →
      p.1 = Date.addMonth^[k] cur := by
  induction fuel generalizing cur with
  | zero => simp [planIntervalsAux]
  | succ fuel ih =>
    by_cases h : cur ≤ e
    · rw [planIntervalsAux_cons h]
      intro k p hk
      cases k with
      | zero =>
        simp only [List.getElem?_cons_zero, Option.some.injEq] at hk
        rw [← hk]
        rfl
      | succ k =>
        simp only [List.getElem?_cons_succ] at hk
        rw [ih k p hk, Function.iterate_succ_apply]
    · rw [planIntervalsAux_nil h]
      simp

/-- Every interval that is followed by another one ends exactly one day
before the next start, and the next start is one calendar month after its
own start (the clamping branch is never taken before the last interval). -/
theorem planIntervalsAux_ends {fuel : Nat} {cur e : Date}
    (hc : cur.Valid) (he : e.Valid) :
    ∀ k p q, (planIntervalsAux fuel cur e)[k]? = some p →
      (planIntervalsAux fuel cur e)[k + 1]? = some q →
      p.2 = p.1.addMonth.pred ∧ q.1 = p.1.addMonth := by
  induction fuel generalizing cur with
  | zero => simp [planIntervalsAux]
  | succ fuel ih =>
    by_cases h : cur ≤ e
    · rw [planIntervalsAux_cons h]
      intro k p q hk hk1
      cases k with
      | zero =>
        simp only [List.getElem?_cons_zero, Option.some.injEq] at hk
        simp only [List.getElem?_cons_succ] at hk1
        have hne : planIntervalsAux fuel cur.addMonth e ≠ [] := by
          intro hnil
          rw [hnil] at hk1
          simp at hk1
        have hnext : cur.addMonth ≤ e := by
          by_contra hn
          exact hne (planIntervalsAux_nil hn fuel)
        have hq1 : q.1 = cur.addMonth := by
          have := planIntervalsAux_start 0 q hk1
          simpa using this
        rw [← hk]
        exact ⟨monthEnd_eq_of_next_le hc hnext, hq1⟩
      | succ k =>
        simp only [List.getElem?_cons_succ] at hk hk1
        exact ih (Date.valid_addMonth hc) k p q hk hk1
    · rw [planIntervalsAux_nil h]
      simp

/-- With enough fuel the loop reaches `e`: the last produced interval ends
exactly at `e`. -/
theorem planIntervalsAux_last {fuel : Nat} {cur e : Date}
    (hc : cur.Valid) (he : e.Valid) (h : cur ≤ e)
    (hf : e.monthIndex + 1 ≤ cur.monthIndex + fuel) :
    ∃ p, (planIntervalsAux fuel cur e).getLast? = some p ∧ p.2 = e := by
  induction fuel generalizing cur with
  | zero =>
    have hmi := Date.monthIndex_le_of_le hc he h
    omega
  | succ fuel ih =>
    rw [planIntervalsAux_cons h]
    by_cases hnext : cur.addMonth ≤ e
    · have hf' : e.monthIndex + 1 ≤ cur.addMonth.monthIndex + fuel := by
        rw [Date.monthIndex_addMonth hc]
        omega
      obtain ⟨p, hp, hpe⟩ := ih (Date.valid_addMonth hc) hnext hf'
      refine ⟨p, ?_, hpe⟩
      have hne := planIntervalsAux_ne_nil (Date.valid_addMonth hc) he hnext hf'
      cases hl : planIntervalsAux fuel cur.addMonth e with
      | nil => exact absurd hl hne
      | cons q l =>
        rw [hl] at hp
        rw [List.getLast?_cons_cons, hp]
    · rw [Date.not_le] at hnext
      rw [planIntervalsAux_nil (Date.not_le.mpr hnext) fuel]
      exact ⟨(cur, monthEnd cur e), by simp, monthEnd_eq_end hc he hnext⟩

/-- Contiguity: in the loop output, each interval starts on the day after
the previous interval ends. -/
theorem planIntervalsAux_chain {fuel : Nat} {cur e : Date}
    (hc : cur.Valid) (he : e.Valid) :
    List.Chain' (fun p q : Date × Date => q.1 = p.2.succ)
      (planIntervalsAux fuel cur e) := by
  induction fuel generalizing cur with
  | zero => simp [planIntervalsAux]
  | succ fuel ih =>
    by_cases h : cur ≤ e
    · rw [planIntervalsAux_cons h]
      rw [List.chain'_cons']
      refine ⟨?_, ih (Date.valid_addMonth hc)⟩
      intro q hq
      cases hl : planIntervalsAux fuel cur.addMonth e with
      | nil => rw [hl] at hq; simp at hq
      | cons r l =>
        rw [hl] at hq
        simp only [List.head?_cons, Option.mem_def, Option.some.injEq] at hq
        have hnext : cur.addMonth ≤ e := by
          by_contra hn
          rw [planIntervalsAux_nil hn fuel] at hl
          exact List.noConfusion hl
        have hr1 : r.1 = cur.addMonth := by
          have h0 : (planIntervalsAux fuel cur.addMonth e)[0]? = some r := by
            rw [hl]; simp
          simpa using planIntervalsAux_start 0 r h0
        subst hq
        rw [hr1, monthEnd_eq_of_next_le hc hnext]
        exact (Date.succ_pred (Date.valid_addMonth hc) (Date.addMonth_side hc)).symm
    · rw [planIntervalsAux_nil h]
      simp

/-- Chronological order with no overlaps: any interval produced earlier
ends strictly before any interval produced later starts. -/
theorem planIntervalsAux_pairwise {fuel : Nat} {cur e : Date}
    (hc : cur.Valid) (he : e.Valid) :
    List.Pairwise (fun p q : Date × Date => p.2 < q.1)
      (planIntervalsAux fuel cur e) := by
  induction fuel generalizing cur with
  | zero => simp [planIntervalsAux]
  | succ fuel ih =>
    by_cases h : cur ≤ e
    · rw [planIntervalsAux_cons h]
      refine List.Pairwise.cons ?_ (ih (Date.valid_addMonth hc))
      intro q hq
      obtain ⟨hv1, hv2, hcq, hq12, hqe⟩ :=
        planIntervalsAux_mem (Date.valid_addMonth hc) he q hq
      have hme : monthEnd cur e ≤ cur.addMonth.pred := by
        unfold monthEnd
        split_ifs with hlt
        · exact Date.le_of_lt hlt
        · exact Date.le_refl _
      refine Date.lt_of_le_of_lt hme (Date.lt_of_lt_of_le ?_ hcq)
      exact Date.pred_lt (Date.valid_addMonth hc) (Date.addMonth_side hc)
    · rw [planIntervalsAux_nil h]
      simp

/-- Exhaustive coverage: a valid date lies in `[cur, e]` exactly when it
lies in one of the produced intervals. -/
theorem planIntervalsAux_cover {fuel : Nat} {cur e : Date}
    (hc : cur.Valid) (he : e.Valid)
    (hf : e.monthIndex + 1 ≤ cur.monthIndex + fuel) :
    ∀ d : Date, d.Valid →
      ((cur ≤ d ∧ d ≤ e) ↔
        ∃ p ∈ planIntervalsAux fuel cur e, p.1 ≤ d ∧ d ≤ p.2) := by
  induction fuel generalizing cur with
  | zero =>
    intro d hd
    rw [planIntervalsAux_nil]
    · simp only [List.not_mem_nil, false_and, exists_false, iff_false]
      intro hcon
      have hmi := Date.monthIndex_le_of_le hc he (Date.le_trans hcon.1 hcon.2)
      omega
    · intro hcon
      have hmi := Date.monthIndex_le_of_le hc he hcon
      omega
  | succ fuel ih =>
    intro d hd
    by_cases h : cur ≤ e
    · rw [planIntervalsAux_cons h]
      have hf' : e.monthIndex + 1 ≤ cur.addMonth.monthIndex + fuel := by
        rw [Date.monthIndex_addMonth hc]
        omega
      have ihd := ih (Date.valid_addMonth hc) hf' d hd
      constructor
      · rintro ⟨hcd, hde⟩
        by_cases hdm : d ≤ monthEnd cur e
        · exact ⟨(cur, monthEnd cur e), List.mem_cons_self _ _, hcd, hdm⟩
        · rw [Date.not_le] at hdm
          have hnext : cur.addMonth ≤ d := by
            by_cases hnexte : cur.addMonth ≤ e
            · rw [monthEnd_eq_of_next_le hc hnexte] at hdm
              rw [← Date.succ_pred (Date.valid_addMonth hc) (Date.addMonth_side hc)]
              rw [← Date.succ_le_iff (Date.valid_pred (Date.valid_addMonth hc)) hd]
              exact hdm
            · rw [Date.not_le] at hnexte
              rw [monthEnd_eq_end hc he hnexte] at hdm
              exact absurd (Date.lt_of_le_of_lt hde hdm) (Date.lt_irrefl d)
          obtain ⟨p, hp, hpd⟩ := ihd.mp ⟨hnext, hde⟩
          exact ⟨p, List.mem_cons_of_mem _ hp, hpd⟩
      · rintro ⟨p, hp, hpd, hdp⟩
        rcases List.mem_cons.mp hp with hph | hpt
        · subst hph
          exact ⟨hpd, Date.le_trans hdp (monthEnd_le_end h)⟩
        · obtain ⟨hv1, hv2, hcp, hp12, hpe⟩ :=
            planIntervalsAux_mem (Date.valid_addMonth hc) he p hpt
          refine ⟨Date.le_trans ?_ hpd, Date.le_trans hdp hpe⟩
          exact Date.le_trans (Date.le_of_lt (Date.lt_addMonth hc)) hcp
    · rw [planIntervalsAux_nil h]
      simp only [List.not_mem_nil, false_and, exists_false, iff_false]
      intro hcon
      exact h (Date.le_trans hcon.1 hcon.2)

theorem planIntervalsAux_head {fuel : Nat} {cur e : Date} (h : cur ≤ e)
    (hf : 1 ≤ fuel) :
    (planIntervalsAux fuel cur e)[0]? = some (cur, monthEnd cur e) := by
  cases fuel with
  | zero => omega
  | succ fuel => rw [planIntervalsAux_cons h]; simp

/-- C1: for valid dates with start ≤ end, the month-interval loop of
`download_images_to_disk` yields a nonempty list of intervals that starts
at the start date, ends exactly at the end date, is chronological and
contiguous (each interval starts the day after the previous one ends,
intervals are pairwise disjoint), and whose union is exactly the set of
valid dates of `[start, end]`. -/
theorem plan_intervals_partition (s e : Date) (hs : s.Valid) (he : e.Valid)
    (hse : s ≤ e) :
    planIntervals s e ≠ []
      ∧ (∀ p, (planIntervals s e)[0]? = some p → p.1 = s)
      ∧ (∃ q, (planIntervals s e).getLast? = some q ∧ q.2 = e)
      ∧ (∀ p ∈ planIntervals s e, p.1 ≤ p.2)
      ∧ List.Chain' (fun p q : Date × Date => q.1 = p.2.succ) (planIntervals s e)
      ∧ List.Pairwise (fun p q : Date × Date => p.2 < q.1) (planIntervals s e)
      ∧ (∀ d : Date, d.Valid →
          ((s ≤ d ∧ d ≤ e) ↔ ∃ p ∈ planIntervals s e, p.1 ≤ d ∧ d ≤ p.2)) := by
  have hmi := Date.monthIndex_le_of_le hs he hse
  have hf : e.monthIndex + 1 ≤ s.monthIndex + (e.monthIndex + 1 - s.monthIndex) := by
    omega
  unfold planIntervals
  refine ⟨planIntervalsAux_ne_nil hs he hse hf, ?_,
    planIntervalsAux_last hs he hse hf,
    fun p hp => (planIntervalsAux_mem hs he p hp).2.2.2.1,
    planIntervalsAux_chain hs he, planIntervalsAux_pairwise hs he,
    planIntervalsAux_cover hs he hf⟩
  intro p hp
  rw [planIntervalsAux_head hse (by omega)] at hp
  simp only [Option.some.injEq] at hp
  rw [← hp]

/-- Witness for C1 at the one-day range 2023-01-01 .. 2023-01-01. -/
theorem plan_intervals_partition_witness :
    planIntervals ⟨2023, 1, 1⟩ ⟨2023, 1, 1⟩ ≠ [] :=
  (plan_intervals_partition ⟨2023, 1, 1⟩ ⟨2023, 1, 1⟩ (by decide) (by decide)
    (by decide)).1

/-- C2: under the month-step policy the k-th interval starts at the start
date advanced k times by one calendar month, every interval followed by
another ends exactly one day before the next start (which is one month
after its own start), the final end is clamped to the range end; the 2023
full-year example yields exactly the twelve expected month intervals. -/
theorem plan_intervals_month_step (s e : Date) (hs : s.Valid) (he : e.Valid)
    (hse : s ≤ e) :
    (∀ k p, (planIntervals s e)[k]? = some p → p.1 = Date.addMonth^[k] s)
      ∧ (∀ k p q, (planIntervals s e)[k]? = some p →
          (planIntervals s e)[k + 1]? = some q →
          q.1 = p.1.addMonth ∧ p.2 = q.1.pred)
      ∧ (∃ q, (planIntervals s e).getLast? = some q ∧ q.2 = e)
      ∧ planIntervals ⟨2023, 1, 1⟩ ⟨2023, 12, 31⟩ =
          [(⟨2023, 1, 1⟩, ⟨2023, 1, 31⟩), (⟨2023, 2, 1⟩, ⟨2023, 2, 28⟩),
           (⟨2023, 3, 1⟩, ⟨2023, 3, 31⟩), (⟨2023, 4, 1⟩, ⟨2023, 4, 30⟩),
           (⟨2023, 5, 1⟩, ⟨2023, 5, 31⟩), (⟨2023, 6, 1⟩, ⟨2023, 6, 30⟩),
           (⟨2023, 7, 1⟩, ⟨2023, 7, 31⟩), (⟨2023, 8, 1⟩, ⟨2023, 8, 31⟩),
           (⟨2023, 9, 1⟩, ⟨2023, 9, 30⟩), (⟨2023, 10, 1⟩, ⟨2023, 10, 31⟩),
           (⟨2023, 11, 1⟩, ⟨2023, 11, 30⟩),
           (⟨2023, 12, 1⟩, ⟨2023, 12, 31⟩)] := by
  have hmi := Date.monthIndex_le_of_le hs he hse
  have hf : e.monthIndex + 1 ≤ s.monthIndex + (e.monthIndex + 1 - s.monthIndex) := by
    omega
  unfold planIntervals
  refine ⟨fun k p hk => planIntervalsAux_start k p hk, ?_,
    planIntervalsAux_last hs he hse hf, by decide⟩
  intro k p q hk hk1
  obtain ⟨h2, h1⟩ := planIntervalsAux_ends hs he k p q hk hk1
  exact ⟨h1, by rw [h2, h1]⟩

/-- Witness for C2 at the documented 2023 full-year example. -/
theorem plan_intervals_month_step_witness :
    ((⟨2023, 4, 1⟩, ⟨2023, 4, 30⟩) : Date × Date).1
      = Date.addMonth^[3] (⟨2023, 1, 1⟩ : Date) :=
  (plan_intervals_month_step ⟨2023, 1, 1⟩ ⟨2023, 12, 31⟩ (by decide)
    (by decide) (by decide)).1 3 (⟨2023, 4, 1⟩, ⟨2023, 4, 30⟩) (by decide)

/-- C6 counterexample: for the inverted range 2023-01-02 .. 2023-01-01 the
planner produces the empty interval list and `download_images_to_disk`
completes with no error of any kind and nothing saved, rather than
failing with an InvalidRangeError: the code performs no range
validation. -/
theorem inverted_range_counterexample :
    planIntervals ⟨2023, 1, 2⟩ ⟨2023, 1, 1⟩ = []
      ∧ (download_images_to_disk (fun _ => [0]) ⟨2023, 1, 2⟩ ⟨2023, 1, 1⟩).error
          = none
      ∧ (download_images_to_disk (fun _ => [0]) ⟨2023, 1, 2⟩ ⟨2023, 1, 1⟩).saved
          = [] := by
  exact ⟨by decide, rfl, rfl⟩

/-- C6 amended: when start > end, interval planning does not fail: the
loop guard is false at once, the planner returns the empty sequence and
the download completes silently (no exception, nothing saved). -/
theorem inverted_range_silent_empty {α : Type} (fetch : Date × Date → List α)
    (s e : Date) (h : e < s) :
    planIntervals s e = []
      ∧ (download_images_to_disk fetch s e).saved = []
      ∧ (download_images_to_disk fetch s e).error = none := by
  have h1 : planIntervals s e = [] :=
    planIntervalsAux_nil (Date.not_le.mpr h) _
  refine ⟨h1, ?_, ?_⟩ <;> (unfold download_images_to_disk; rw [h1]; rfl)

/-- Witness for the amended C6 at a concrete inverted range. -/
theorem inverted_range_silent_empty_witness :
    planIntervals ⟨2024, 5, 10⟩ ⟨2024, 5, 9⟩ = []
      ∧ (download_images_to_disk (fun _ => [42]) ⟨2024, 5, 10⟩ ⟨2024, 5, 9⟩).saved
          = []
      ∧ (download_images_to_disk (fun _ => [42]) ⟨2024, 5, 10⟩ ⟨2024, 5, 9⟩).error
          = none :=
  inverted_range_silent_empty (fun _ => [42]) ⟨2024, 5, 10⟩ ⟨2024, 5, 9⟩
    (by decide)

/-- C7 counterexample: an empty `get_data()` response is not turned into a
sentinel no-data result: `download_single_image` raises an IndexError, and
over the range 2023-01-01 .. 2023-02-28 with an empty January response the
download loop aborts fatally, saving nothing — the February interval is
never fetched even though its response is nonempty. -/
theorem empty_fetch_counterexample :
    download_single_image ([] : List Nat)
        = Except.error "IndexError: list index out of range"
      ∧ (download_images_to_disk
          (fun iv => if iv.1.month = 1 then ([] : List Nat) else [7])
          ⟨2023, 1, 1⟩ ⟨2023, 2, 28⟩).error
          = some "IndexError: list index out of range"
      ∧ (download_images_to_disk
          (fun iv => if iv.1.month = 1 then ([] : List Nat) else [7])
          ⟨2023, 1, 1⟩ ⟨2023, 2, 28⟩).saved = [] := by
  exact ⟨rfl, by decide, by decide⟩

/-- C7 amended: when the first fetched interval receives an empty response
the uncaught IndexError aborts the download loop immediately: the error
propagates and no file is saved, including for all later intervals. -/
theorem empty_fetch_aborts {α : Type} (fetch : Date × Date → List α)
    (iv : Date × Date) (rest : List (Date × Date)) (h : fetch iv = []) :
    (downloadLoop fetch (iv :: rest)).error
        = some "IndexError: list index out of range"
      ∧ (downloadLoop fetch (iv :: rest)).saved = [] := by
  unfold downloadLoop download_single_image
  rw [h]
  exact ⟨rfl, rfl⟩

/-- Witness for the amended C7 on a single-interval list with an empty
response. -/
theorem empty_fetch_aborts_witness :
    (downloadLoop (fun _ => ([] : List Nat))
        [(⟨2023, 1, 1⟩, ⟨2023, 1, 31⟩)]).error
        = some "IndexError: list index out of range"
      ∧ (downloadLoop (fun _ => ([] : List Nat))
          [(⟨2023, 1, 1⟩, ⟨2023, 1, 31⟩)]).saved = [] :=
  empty_fetch_aborts (fun _ => []) (⟨2023, 1, 1⟩, ⟨2023, 1, 31⟩) [] rfl


theorem tileGrid_length (W H tw th : Nat) :
    (tileGrid W H tw th).length = (W / tw) * (H / th) := by
  unfold tileGrid
  rw [List.length_flatMap]
  simp [Function.comp_def, List.map_const', List.sum_replicate, smul_eq_mul,
    Nat.mul_comm]

theorem tileGrid_mem (W H tw th : Nat) (c : Nat × Nat) :
    c ∈ tileGrid W H tw th ↔ c.1 < H / th ∧ c.2 < W / tw := by
  rcases c with ⟨i, j⟩
  simp [tileGrid, List.mem_flatMap, List.mem_map, List.mem_range, eq_comm]

/-- C3: the tiling stage of `crop_and_process_images` produces exactly
`(W / tw) * (H / th)` tiles, one per grid cell `(i, j)` with
`i < H / th` and `j < W / tw` (any remainder strip is dropped); a 512x512
image with 256x256 tiles yields the four cells (0,0),(0,1),(1,0),(1,1)
and a 300x300 image yields exactly one tile. -/
theorem tile_grid_count (W H tw th : Nat) (htw : 0 < tw) (hth : 0 < th) :
    (tileGrid W H tw th).length = (W / tw) * (H / th)
      ∧ (∀ c : Nat × Nat, c ∈ tileGrid W H tw th ↔ c.1 < H / th ∧ c.2 < W / tw)
      ∧ tileGrid 512 512 256 256 = [(0, 0), (0, 1), (1, 0), (1, 1)]
      ∧ (tileGrid 300 300 256 256).length = 1 :=
  ⟨tileGrid_length W H tw th, tileGrid_mem W H tw th, by decide, by decide⟩

/-- Witness for C3 at the 512x512 example. -/
theorem tile_grid_count_witness :
    (tileGrid 512 512 256 256).length = (512 / 256) * (512 / 256) :=
  (tile_grid_count 512 512 256 256 (by decide) (by decide)).1

/-- C10: every crop box generated by the tiling loop lies entirely inside
the source image, and boxes of distinct grid cells are pairwise
disjoint. -/
theorem tile_boxes_inbounds_disjoint (W H tw th : Nat) :
    (∀ c ∈ tileGrid W H tw th,
        (tileBox tw th c).right ≤ W ∧ (tileBox tw th c).lower ≤ H)
      ∧ (∀ c ∈ tileGrid W H tw th, ∀ c2 ∈ tileGrid W H tw th, c ≠ c2 →
          ∀ x y, ¬ (inBox (tileBox tw th c) x y ∧ inBox (tileBox tw th c2) x y)) := by
  constructor
  · intro c hc
    rw [tileGrid_mem] at hc
    obtain ⟨hi, hj⟩ := hc
    constructor
    · have h1 : (c.2 + 1) * tw ≤ (W / tw) * tw := Nat.mul_le_mul_right tw hj
      have h2 : (W / tw) * tw ≤ W := Nat.div_mul_le_self W tw
      have e : (c.2 + 1) * tw = c.2 * tw + tw := by ring
      simp only [tileBox]
      omega
    · have h1 : (c.1 + 1) * th ≤ (H / th) * th := Nat.mul_le_mul_right th hi
      have h2 : (H / th) * th ≤ H := Nat.div_mul_le_self H th
      have e : (c.1 + 1) * th = c.1 * th + th := by ring
      simp only [tileBox]
      omega
  · rintro ⟨i, j⟩ hc ⟨i2, j2⟩ hc2 hne x y ⟨hb, hb2⟩
    simp only [inBox, tileBox] at hb hb2
    obtain ⟨h1, h2, h3, h4⟩ := hb
    obtain ⟨h5, h6, h7, h8⟩ := hb2
    apply hne
    have ej : j = j2 := by
      rcases Nat.lt_trichotomy j j2 with hlt | heq | hgt
      · have h9 : (j + 1) * tw ≤ j2 * tw := Nat.mul_le_mul_right tw hlt
        have e : (j + 1) * tw = j * tw + tw := by ring
        omega
      · exact heq
      · have h9 : (j2 + 1) * tw ≤ j * tw := Nat.mul_le_mul_right tw hgt
        have e : (j2 + 1) * tw = j2 * tw + tw := by ring
        omega
    have ei : i = i2 := by
      rcases Nat.lt_trichotomy i i2 with hlt | heq | hgt
      · have h9 : (i + 1) * th ≤ i2 * th := Nat.mul_le_mul_right th hlt
        have e : (i + 1) * th = i * th + th := by ring
        omega
      · exact heq
      · have h9 : (i2 + 1) * th ≤ i * th := Nat.mul_le_mul_right th hgt
        have e : (i2 + 1) * th = i2 * th + th := by ring
        omega
    rw [ei, ej]

/-- Witness for C10 at the 512x512 example: the (0,0) box is in bounds and
the (0,0) and (1,1) boxes are disjoint at the origin pixel. -/
theorem tile_boxes_inbounds_disjoint_witness :
    ((tileBox 256 256 (0, 0)).right ≤ 512 ∧ (tileBox 256 256 (0, 0)).lower ≤ 512)
      ∧ ¬ (inBox (tileBox 256 256 (0, 0)) 0 0 ∧ inBox (tileBox 256 256 (1, 1)) 0 0) :=
  ⟨(tile_boxes_inbounds_disjoint 512 512 256 256).1 (0, 0) (by decide),
    (tile_boxes_inbounds_disjoint 512 512 256 256).2 (0, 0) (by decide) (1, 1)
      (by decide) (by decide) 0 0⟩

/-- C5: a decode failure on one source file is caught and logged with the
filename and the error message, and every other file is processed exactly
as it would be without the failing file; in the concrete scenario of one
corrupt file listed before two valid files, processing completes, both
valid files produce their tiles and the failure is logged. -/
theorem per_file_fault_isolation (tw th : Nat) (xs ys : List SrcFile)
    (f : SrcFile) (msg : String) (hext : hasImageExt f.name = true)
    (hf : f.decoded = Decoded.failure msg) :
    crop_and_process_images tw th (xs ++ f :: ys)
        = crop_and_process_images tw th xs
          ++ FileOutcome.failed ("Error processing " ++ f.name ++ ": " ++ msg)
            :: crop_and_process_images tw th ys
      ∧ crop_and_process_images 256 256
          [⟨"b", ".png", Decoded.failure "cannot identify image file"⟩,
           ⟨"a", ".png", Decoded.img 512 512⟩,
           ⟨"c", ".jpg", Decoded.img 300 300⟩]
          = [FileOutcome.failed
               "Error processing b.png: cannot identify image file",
             FileOutcome.processed ["a_tile_0_0.png", "a_tile_0_1.png",
               "a_tile_1_0.png", "a_tile_1_1.png"],
             FileOutcome.processed ["c_tile_0_0.png"]] := by
  constructor
  · simp [crop_and_process_images, processFile, hext, hf]
  · decide

/-- Witness for C5: the failing file between no file and one valid file. -/
theorem per_file_fault_isolation_witness :
    crop_and_process_images 256 256
        ([] ++ ⟨"b", ".png", Decoded.failure "boom"⟩
          :: [⟨"a", ".png", Decoded.img 512 512⟩])
        = crop_and_process_images 256 256 []
          ++ FileOutcome.failed
              ("Error processing "
                ++ (SrcFile.mk "b" ".png" (Decoded.failure "boom")).name
                ++ ": " ++ "boom")
            :: crop_and_process_images 256 256
              [⟨"a", ".png", Decoded.img 512 512⟩] :=
  (per_file_fault_isolation 256 256 [] [⟨"a", ".png", Decoded.img 512 512⟩]
    ⟨"b", ".png", Decoded.failure "boom"⟩ "boom" (by decide) rfl).1

/-- C8 counterexample: `crop_and_process_images` writes four tiles for one
valid 512x512 file but its return value is None, not the count 4: the
function body has no return statement. -/
theorem process_retval_counterexample :
    (crop_and_process_images_run 256 256
        [⟨"a", ".png", Decoded.img 512 512⟩]).retval
      ≠ some (tilesWritten (crop_and_process_images_run 256 256
          [⟨"a", ".png", Decoded.img 512 512⟩]).outcomes) := by
  decide

/-- C8 amended: the directory-processing operation returns None (it has no
return statement); the number of tile files it writes equals the sum over
listed, successfully decoded files of `(w / tw) * (h / th)`. -/
theorem process_returns_none_with_count (tw th : Nat) (files : List SrcFile) :
    (crop_and_process_images_run tw th files).retval = none
      ∧ tilesWritten (crop_and_process_images_run tw th files).outcomes
          = (files.map fun f =>
              if hasImageExt f.name then
                match f.decoded with
                | Decoded.img w h => (w / tw) * (h / th)
                | Decoded.failure _ => 0
              else 0).sum := by
  refine ⟨rfl, ?_⟩
  unfold crop_and_process_images_run crop_and_process_images tilesWritten
  rw [List.map_map]
  refine congrArg List.sum ?_
  apply List.map_congr_left
  intro f hfmem
  simp only [Function.comp]
  unfold processFile
  split_ifs with h
  · cases hd : f.decoded with
    | img w h2 => simp [tileGrid_length]
    | failure m => simp
  · rfl

theorem gammaTable_length (gamma : ℝ) : (gammaTable gamma).length = 256 := by
  simp [gammaTable]

theorem gammaTable_getD (gamma : ℝ) (c : ℕ) (hc : c < 256) :
    (gammaTable gamma).getD c 0 = ((c : ℝ) / 255) ^ (1 / gamma) * 255 := by
  unfold gammaTable
  rw [List.getD_eq_getElem?_getD, List.getElem?_map, List.getElem?_range hc]
  rfl

theorem gammaTableRGB_getD (gamma : ℝ) (band c : ℕ) (hb : band < 3)
    (hc : c < 256) :
    (gammaTableRGB gamma).getD (band * 256 + c) 0
      = ((c : ℝ) / 255) ^ (1 / gamma) * 255 := by
  unfold gammaTableRGB
  have hl := gammaTable_length gamma
  interval_cases band
  · rw [List.getD_append _ _ _ _ (by simp [hl]; try omega),
      List.getD_append _ _ _ _ (by simp [hl]; try omega)]
    simpa using gammaTable_getD gamma c hc
  · rw [List.getD_append _ _ _ _ (by simp [hl]; try omega),
      List.getD_append_right _ _ _ _ (by simp [hl]; try omega)]
    have h1 : 1 * 256 + c - (gammaTable gamma).length = c := by simp [hl]
    rw [h1]
    exact gammaTable_getD gamma c hc
  · rw [List.getD_append_right _ _ _ _ (by simp [hl]; try omega)]
    simp only [List.length_append, hl]
    have h2 : 2 * 256 + c - (256 + 256) = c := by omega
    rw [h2]
    exact gammaTable_getD gamma c hc

theorem pointChannel_gammaRGB (gamma : ℝ) (band c : ℕ) (hb : band < 3)
    (hc : c ≤ 255) :
    pointChannel (gammaTableRGB gamma) band c
      = clampRound (((c : ℝ) / 255) ^ (1 / gamma) * 255) := by
  unfold pointChannel
  rw [gammaTableRGB_getD gamma band c hb (by omega)]

/-- C4: for every `gamma != 1.0` and channel value `c` in 0..255, the
gamma step maps `c` through `((c / 255) ^ (1 / gamma)) * 255`, clamped to
0..255 and rounded to an integer, identically on all three RGB bands of
the replicated lookup table; when `gamma == 1.0` the gamma step is skipped
entirely. -/
theorem gamma_lut_spec (gamma : ℝ) (hg : gamma ≠ 1) (c : ℕ) (hc : c ≤ 255) :
    (∀ band, band < 3 →
        pointChannel (gammaTableRGB gamma) band c
          = clampRound (((c : ℝ) / 255) ^ (1 / gamma) * 255))
      ∧ (∀ p : ℕ × ℕ × ℕ, gammaStep gamma p
          = (pointChannel (gammaTableRGB gamma) 0 p.1,
             pointChannel (gammaTableRGB gamma) 1 p.2.1,
             pointChannel (gammaTableRGB gamma) 2 p.2.2))
      ∧ (∀ p : ℕ × ℕ × ℕ, gammaStep 1 p = p) := by
  refine ⟨fun band hb => pointChannel_gammaRGB gamma band c hb hc, ?_, ?_⟩
  · intro p
    unfold gammaStep
    rw [if_pos hg]
  · intro p
    unfold gammaStep
    rw [if_neg (fun h => h rfl)]

/-- Witness for C4 at gamma 2, channel value 0, band 0. -/
theorem gamma_lut_spec_witness :
    pointChannel (gammaTableRGB 2) 0 0
      = clampRound ((((0 : ℕ) : ℝ) / 255) ^ (1 / (2 : ℝ)) * 255) :=
  (gamma_lut_spec 2 (by norm_num) 0 (by norm_num)).1 0 (by norm_num)

/-- C9: with brightness factor 1.0 and gamma 1.0, the enhancement stage is
the identity transform: every processed pixel equals the cropped source
pixel, and a whole tile passes through unchanged. -/
theorem enhance_identity :
    (∀ p : ℕ × ℕ × ℕ, processPixel 1 1 p = p)
      ∧ (∀ tile : List (ℕ × ℕ × ℕ), processTile 1 1 tile = tile) := by
  have hb : ∀ c : ℕ, blendChannel 1 0 c = c := by
    intro c
    unfold blendChannel
    rw [if_neg one_ne_zero, if_pos rfl]
  have hp : ∀ p : ℕ × ℕ × ℕ, processPixel 1 1 p = p := by
    intro p
    unfold processPixel brightnessChannel
    simp only [hb]
    unfold gammaStep
    rw [if_neg (fun h => h rfl)]
  refine ⟨hp, fun tile => ?_⟩
  unfold processTile
  rw [List.map_congr_left fun p _ => hp p]
  exact List.map_id tile

end Kaisha
